import Mathlib

/-!
Verification of the Maven/Gradle coordinate type and the metadata
validation helpers of `meta/metautil.py`.

Strings are modelled as `List Char`; Python's `str.split(sep)` for a
single-character separator is modelled by `splitOn`, and `%`-style string
interpolation by explicit list concatenation.  Python integers are `Int`.
Fallible code (code that can raise) returns `Option`/`Except`.
-/

namespace MetaUtil

/-- Python `s.split(sep)` for a one-character separator `sep`:
always returns `count sep s + 1` pieces; `"".split(sep) = [""]`. -/
def splitOn (sep : Char) : List Char → List (List Char)
  | [] => [[]]
  | c :: rest =>
    if c = sep then [] :: splitOn sep rest
    else
      match splitOn sep rest with
      | [] => [[c]]
      | p :: ps => (c :: p) :: ps

/-- Python `sep.join(pieces)` for a one-character separator. -/
def joinSep (sep : Char) : List (List Char) → List Char
  | [] => []
  | [p] => p
  | p :: ps => p ++ sep :: joinSep sep ps

/-- The default extension literal `'jar'`. -/
def jarExt : List Char := 'j' :: 'a' :: 'r' :: []

/-- The in-memory form of `GradleSpecifier`: fields `group`, `artifact`,
`version`, `classifier` (Python `None` is `none`) and `extension`. -/
structure GradleSpecifier where
  group : List Char
  artifact : List Char
  version : List Char
  classifier : Option (List Char)
  extension : List Char
deriving DecidableEq, Repr

/-- `GradleSpecifier.__init__`: split on `'@'`, split the first piece on
`':'`, take the first three segments as group/artifact/version (an input
with fewer than three segments raises, modelled as `none`), set the
extension from the `'@'` split only when that split has exactly two
pieces, and set the classifier only when the `':'` split has exactly four
segments. -/
def GradleSpecifier.parse (name : List Char) : Option GradleSpecifier :=
  match splitOn '@' name with
  | [] => none
  | atSplitHead :: atSplitTail =>
    match splitOn ':' atSplitHead with
    | g :: a :: v :: restComponents =>
      some
        { group := g
          artifact := a
          version := v
          extension :=
            match atSplitTail with
            | [e] => e
            | _ => jarExt
          classifier :=
            match restComponents with
            | [c] => some c
            | _ => none }
    | _ => none

/-- `GradleSpecifier.toString`: `group:artifact:version[:classifier][@extension]`,
with the `@extension` suffix emitted only when the extension differs from
`jar`, and the classifier segment emitted only when the classifier is
truthy (set and non-empty, Python `if self.classifier:`). -/
def GradleSpecifier.toString (s : GradleSpecifier) : List Char :=
  let extensionStr : List Char :=
    if s.extension = jarExt then [] else '@' :: s.extension
  match s.classifier with
  | some c =>
    if c = [] then
      s.group ++ ':' :: s.artifact ++ ':' :: s.version ++ extensionStr
    else
      s.group ++ ':' :: s.artifact ++ ':' :: s.version ++ ':' :: c ++ extensionStr
  | none => s.group ++ ':' :: s.artifact ++ ':' :: s.version ++ extensionStr

/-- `GradleSpecifier.getFilename`: `artifact-version[-classifier].extension`,
the classifier part present only when the classifier is truthy. -/
def GradleSpecifier.getFilename (s : GradleSpecifier) : List Char :=
  match s.classifier with
  | some c =>
    if c = [] then
      s.artifact ++ '-' :: s.version ++ '.' :: s.extension
    else
      s.artifact ++ '-' :: s.version ++ '-' :: c ++ '.' :: s.extension
  | none => s.artifact ++ '-' :: s.version ++ '.' :: s.extension

/-- `GradleSpecifier.getBase`: the group with every `'.'` replaced by `'/'`,
then `/artifact/version/`. -/
def GradleSpecifier.getBase (s : GradleSpecifier) : List Char :=
  (s.group.map fun c => if c = '.' then '/' else c) ++
    '/' :: s.artifact ++ '/' :: s.version ++ '/' :: []

/-- `GradleSpecifier.getPath`: `getBase() + getFilename()`. -/
def GradleSpecifier.getPath (s : GradleSpecifier) : List Char :=
  s.getBase ++ s.getFilename

/-- `GradleSpecifier.__eq__`: group, artifact, version and classifier all
match; the extension takes no part. -/
def GradleSpecifier.eq (a b : GradleSpecifier) : Bool :=
  a.group == b.group && a.artifact == b.artifact &&
    a.version == b.version && a.classifier == b.classifier

/-- `GradleSpecifier.__ne__`: the negation of `__eq__`. -/
def GradleSpecifier.ne (a b : GradleSpecifier) : Bool :=
  !(a.eq b)

/-- `GradleSpecifier.__hash__` hashes the canonical string; the string
hash itself (Python `str.__hash__`, a seeded SipHash) is abstracted as a
parameter `h`. -/
def GradleSpecifier.hashWith (h : List Char → Nat) (s : GradleSpecifier) : Nat :=
  h s.toString

/-- `GradleSpecifier(s)` for inputs known to parse, with an inert dummy for
the unreachable failure case (used only to state concrete examples). -/
def parseD (s : String) : GradleSpecifier :=
  (GradleSpecifier.parse s.toList).getD
    { group := [], artifact := [], version := [], classifier := none, extension := [] }

/-- The Python exception `UnknownVersionException` carries a message built
from a format string holding the observed and the maximum version; it is
modelled by which format string was used together with the two numbers it
interpolates. -/
inductive UnknownVersionException where
  | unsupportedMojang (observed maximum : Int)
  | unsupportedPolyMC (observed maximum : Int)
deriving DecidableEq, Repr

/-- `validateSupportedMojangVersion`: raise `UnknownVersionException`
carrying the observed and the maximum value when the version exceeds the
local constant `supportedVersion = 21`, otherwise return normally. -/
def validateSupportedMojangVersion (version : Int) : Except UnknownVersionException Unit :=
  let supportedVersion : Int := 21
  if version > supportedVersion then
    .error (.unsupportedMojang version supportedVersion)
  else
    .ok ()

/-- `CurrentPolyMCFormatVersion = 1`. -/
def CurrentPolyMCFormatVersion : Int := 1

/-- `validateSupportedPolyMCVersion`: raise `UnknownVersionException`
carrying the observed and the maximum value when the version exceeds
`CurrentPolyMCFormatVersion`, otherwise return normally. -/
def validateSupportedPolyMCVersion (version : Int) : Except UnknownVersionException Unit :=
  if version > CurrentPolyMCFormatVersion then
    .error (.unsupportedPolyMC version CurrentPolyMCFormatVersion)
  else
    .ok ()

/-- Modelled from the spec: the generic object-mapping engine
(`meta/jsonobject`, not under `src/`) decodes the `formatVersion` field of
`VersionedJsonObject`, declared in `src` as
`IntegerProperty(default=CurrentPolyMCFormatVersion,
validators=validateSupportedPolyMCVersion)` — an absent field takes the
declared default, and the declared validator runs on the resulting value
during decode; a validator error fails the decode. -/
def decodeFormatVersion (field : Option Int) : Except UnknownVersionException Int :=
  let v := field.getD CurrentPolyMCFormatVersion
  match validateSupportedPolyMCVersion v with
  | .ok _ => .ok v
  | .error e => .error e

/-- Modelled from the spec: the engine decodes the optional
`minimumLauncherVersion` field of `MojangVersionFile`, declared in `src`
as `IntegerProperty(exclude_if_none=True, default=None,
validators=validateSupportedMojangVersion)` — the field is optional with
default absence and the declared validator runs only on a present value,
so absence never triggers the check. -/
def decodeMinimumLauncherVersion (field : Option Int) :
    Except UnknownVersionException (Option Int) :=
  match field with
  | none => .ok none
  | some v =>
    match validateSupportedMojangVersion v with
    | .ok _ => .ok (some v)
    | .error e => .error e

/-- A Python `EnvironmentError` (an I/O failure), by its message. -/
structure EnvError where
  message : List Char
deriving DecidableEq, Repr

/-- `PolyMCSharedPackageData`: the format version plus required
`name`/`uid` and the four optional descriptor fields. -/
structure PolyMCSharedPackageData where
  formatVersion : Int
  name : List Char
  uid : List Char
  recommended : Option (List (List Char)) := none
  authors : Option (List (List Char)) := none
  description : Option (List Char) := none
  projectUrl : Option (List Char) := none
deriving DecidableEq, Repr

/-- `PolyMCSharedPackageData.write`: the body opens the fixed path for
`self.uid` and dumps the encoded descriptor — a single fallible I/O step
whose outcome is passed in as `fileWrite`.  An `EnvironmentError` raised
by that step is caught and printed; the diagnostics printed are returned
as the payload, each entry pairing the `uid` the message names with the
caught error.  An `.error` result would model an exception propagating
out of `write`. -/
def PolyMCSharedPackageData.write (self : PolyMCSharedPackageData)
    (fileWrite : Except EnvError Unit) :
    Except EnvError (List (List Char × EnvError)) :=
  match fileWrite with
  | .ok _ => .ok []
  | .error e => .ok [(self.uid, e)]

/-- The specification's filename formula read literally:
`artifact-version[-classifier].extension`, the bracketed classifier part
present exactly when a classifier is set. -/
def filenameSpec (s : GradleSpecifier) : List Char :=
  match s.classifier with
  | some c => s.artifact ++ '-' :: s.version ++ '-' :: c ++ '.' :: s.extension
  | none => s.artifact ++ '-' :: s.version ++ '.' :: s.extension

/-- The filename formula as amended: the `-classifier` part is present
exactly when the classifier is set to a non-empty string. -/
def filenameSpecAmended (s : GradleSpecifier) : List Char :=
  s.artifact ++ '-' :: s.version ++
    (match s.classifier with
     | some c => if c = [] then [] else '-' :: c
     | none => []) ++ '.' :: s.extension

/-- The specification's relative-directory formula: the group with every
`.` turned into `/` (read as the dot-separated group segments joined with
slashes), then `/artifact/version/`. -/
def relativeDirectorySpec (s : GradleSpecifier) : List Char :=
  joinSep '/' (splitOn '.' s.group) ++ '/' :: s.artifact ++ '/' :: s.version ++ '/' :: []

/-- The normalized form of an accepted coordinate string: an explicit
`@jar` suffix is dropped, anything else is kept as written. -/
def normalizeJar (s : List Char) : List Char :=
  match splitOn '@' s with
  | [p, e] => if e = jarExt then p else s
  | _ => s

/-! ### Library lemmas about `splitOn` and `joinSep` -/

theorem splitOn_ne_nil (sep : Char) (s : List Char) : splitOn sep s ≠ [] := by
  induction s with
  | nil => simp [splitOn]
  | cons c rest ih =>
    by_cases h : c = sep
    · simp [splitOn, h]
    · simp only [splitOn, if_neg h]
      cases hs : splitOn sep rest with
      | nil => simp
      | cons p ps => simp

theorem splitOn_length (sep : Char) (s : List Char) :
    (splitOn sep s).length = s.count sep + 1 := by
  induction s with
  | nil => simp [splitOn]
  | cons c rest ih =>
    by_cases h : c = sep
    · simp [splitOn, h, List.count_cons, ih]
    · simp only [splitOn, if_neg h]
      cases hs : splitOn sep rest with
      | nil => exact absurd hs (splitOn_ne_nil sep rest)
      | cons p ps =>
        rw [hs] at ih
        simp only [List.length_cons] at ih ⊢
        simp [List.count_cons, ih, Ne.symm h]

theorem joinSep_splitOn_map (sep rep : Char) (s : List Char) :
    joinSep rep (splitOn sep s) = s.map fun c => if c = sep then rep else c := by
  induction s with
  | nil => rfl
  | cons c rest ih =>
    by_cases h : c = sep
    · cases hs : splitOn sep rest with
      | nil => exact absurd hs (splitOn_ne_nil sep rest)
      | cons p ps =>
        rw [hs] at ih
        simp [splitOn, h, hs, joinSep, ih]
    · cases hs : splitOn sep rest with
      | nil => exact absurd hs (splitOn_ne_nil sep rest)
      | cons p ps =>
        rw [hs] at ih
        cases ps with
        | nil => simp [splitOn, if_neg h, hs, joinSep, h] at ih ⊢; simp [ih]
        | cons q qs =>
          simp only [joinSep] at ih
          simp [splitOn, if_neg h, hs, joinSep, h, ih]

theorem joinSep_splitOn (sep : Char) (s : List Char) :
    joinSep sep (splitOn sep s) = s := by
  have hf : (fun c : Char => if c = sep then sep else c) = id := by
    funext c
    by_cases h : c = sep <;> simp [h]
  rw [joinSep_splitOn_map sep sep s, hf, List.map_id]

theorem not_mem_of_mem_splitOn (sep : Char) {s p : List Char}
    (hp : p ∈ splitOn sep s) : sep ∉ p := by
  induction s generalizing p with
  | nil =>
    simp [splitOn] at hp
    simp [hp]
  | cons c rest ih =>
    by_cases h : c = sep
    · simp only [splitOn, if_pos h] at hp
      rcases List.mem_cons.mp hp with h1 | h2
      · simp [h1]
      · exact ih h2
    · simp only [splitOn, if_neg h] at hp
      cases hs : splitOn sep rest with
      | nil => exact absurd hs (splitOn_ne_nil sep rest)
      | cons q qs =>
        rw [hs] at hp
        rcases List.mem_cons.mp hp with h1 | h2
        · subst h1
          intro hmem
          rcases List.mem_cons.mp hmem with h3 | h4
          · exact h h3.symm
          · exact ih (hs ▸ List.mem_cons_self q qs) h4
        · exact ih (hs ▸ List.mem_cons_of_mem q h2)

theorem mem_of_mem_splitOn (sep : Char) {s p : List Char} {c : Char}
    (hp : p ∈ splitOn sep s) (hc : c ∈ p) : c ∈ s := by
  induction s generalizing p with
  | nil =>
    simp [splitOn] at hp
    subst hp
    simp at hc
  | cons x rest ih =>
    by_cases h : x = sep
    · simp only [splitOn, if_pos h] at hp
      rcases List.mem_cons.mp hp with h1 | h2
      · subst h1; simp at hc
      · exact List.mem_cons_of_mem x (ih h2 hc)
    · simp only [splitOn, if_neg h] at hp
      cases hs : splitOn sep rest with
      | nil => exact absurd hs (splitOn_ne_nil sep rest)
      | cons q qs =>
        rw [hs] at hp
        rcases List.mem_cons.mp hp with h1 | h2
        · subst h1
          rcases List.mem_cons.mp hc with h3 | h4
          · exact h3 ▸ List.mem_cons_self x rest
          · exact List.mem_cons_of_mem x (ih (hs ▸ List.mem_cons_self q qs) h4)
        · exact List.mem_cons_of_mem x (ih (hs ▸ List.mem_cons_of_mem q h2) hc)

theorem splitOn_of_not_mem (sep : Char) {s : List Char} (h : sep ∉ s) :
    splitOn sep s = [s] := by
  induction s with
  | nil => rfl
  | cons c rest ih =>
    have hc : c ≠ sep := fun hcc => h (hcc ▸ List.mem_cons_self c rest)
    have hrest : sep ∉ rest := fun hm => h (List.mem_cons_of_mem c hm)
    simp [splitOn, if_neg hc, ih hrest]

theorem splitOn_append (sep : Char) {a : List Char} (rest : List Char)
    (h : sep ∉ a) : splitOn sep (a ++ sep :: rest) = a :: splitOn sep rest := by
  induction a with
  | nil => simp [splitOn]
  | cons x xs ih =>
    have hx : x ≠ sep := fun hxx => h (hxx ▸ List.mem_cons_self x xs)
    have hxs : sep ∉ xs := fun hm => h (List.mem_cons_of_mem x hm)
    simp [splitOn, if_neg hx, ih hxs]

/-- Characterization of `parse` through the head of the `@`-split (the
`@`-split is never empty, so the two-level match of the definition
flattens). -/
theorem parse_eq (s : List Char) :
    GradleSpecifier.parse s =
      (match splitOn ':' (splitOn '@' s).headI with
       | g :: a :: v :: restComponents =>
         some { group := g, artifact := a, version := v,
                extension :=
                  match (splitOn '@' s).tail with
                  | [e] => e
                  | _ => jarExt,
                classifier :=
                  match restComponents with
                  | [c] => some c
                  | _ => none }
       | _ => none) := by
  cases hs : splitOn '@' s with
  | nil => exact absurd hs (splitOn_ne_nil '@' s)
  | cons p ats => simp [GradleSpecifier.parse, hs]

/-- `parse` on a string without `@`: no extension suffix is found, the
default `jar` applies. -/
theorem parse_no_at (p : List Char) (hp : '@' ∉ p) :
    GradleSpecifier.parse p =
      (match splitOn ':' p with
       | g :: a :: v :: restComponents =>
         some { group := g, artifact := a, version := v, extension := jarExt,
                classifier :=
                  match restComponents with
                  | [cl] => some cl
                  | _ => none }
       | _ => none) := by
  rw [parse_eq, splitOn_of_not_mem '@' hp]
  simp only [List.headI, List.tail_cons]

/-- `parse` on `p ++ "@" ++ e` with `@` in neither part: `e` becomes the
extension. -/
theorem parse_with_at (p e : List Char) (hp : '@' ∉ p) (he : '@' ∉ e) :
    GradleSpecifier.parse (p ++ '@' :: e) =
      (match splitOn ':' p with
       | g :: a :: v :: restComponents =>
         some { group := g, artifact := a, version := v, extension := e,
                classifier :=
                  match restComponents with
                  | [cl] => some cl
                  | _ => none }
       | _ => none) := by
  rw [parse_eq, splitOn_append '@' e hp, splitOn_of_not_mem '@' he]
  simp only [List.headI, List.tail_cons]

/-- Re-parsing the canonical string of a well-formed specifier (no stray
separator characters inside the fields, classifier absent or non-empty)
recovers the specifier exactly. -/
theorem parse_of_wellFormed (c : GradleSpecifier)
    (hg : ':' ∉ c.group) (hg2 : '@' ∉ c.group)
    (ha : ':' ∉ c.artifact) (ha2 : '@' ∉ c.artifact)
    (hv : ':' ∉ c.version) (hv2 : '@' ∉ c.version)
    (hcl : ∀ cl, c.classifier = some cl → cl ≠ [] ∧ ':' ∉ cl ∧ '@' ∉ cl)
    (he : '@' ∉ c.extension) :
    GradleSpecifier.parse c.toString = some c := by
  obtain ⟨g, a, v, cls, ext⟩ := c
  simp only at hg hg2 ha ha2 hv hv2 he hcl
  have hne : ('@' : Char) ≠ ':' := by decide
  cases cls with
  | none =>
    have hT : '@' ∉ g ++ ':' :: (a ++ ':' :: v) := by
      simp only [List.mem_append, List.mem_cons, not_or]
      exact ⟨hg2, hne, ha2, hne, hv2⟩
    have hsp : splitOn ':' (g ++ ':' :: (a ++ ':' :: v)) = [g, a, v] := by
      rw [splitOn_append ':' (a ++ ':' :: v) hg, splitOn_append ':' v ha,
        splitOn_of_not_mem ':' hv]
    by_cases hext : ext = jarExt
    · subst hext
      have htos : GradleSpecifier.toString
          { group := g, artifact := a, version := v, classifier := none,
            extension := jarExt } = g ++ ':' :: (a ++ ':' :: v) := by
        simp [GradleSpecifier.toString]
      rw [htos, parse_no_at _ hT, hsp]
    · have htos : GradleSpecifier.toString
          { group := g, artifact := a, version := v, classifier := none,
            extension := ext } = (g ++ ':' :: (a ++ ':' :: v)) ++ '@' :: ext := by
        simp [GradleSpecifier.toString, hext]
      rw [htos, parse_with_at _ _ hT he, hsp]
  | some cl =>
    obtain ⟨hclne, hclc, hcla⟩ := hcl cl rfl
    have hT : '@' ∉ g ++ ':' :: (a ++ ':' :: (v ++ ':' :: cl)) := by
      simp only [List.mem_append, List.mem_cons, not_or]
      exact ⟨hg2, hne, ha2, hne, hv2, hne, hcla⟩
    have hsp : splitOn ':' (g ++ ':' :: (a ++ ':' :: (v ++ ':' :: cl))) =
        [g, a, v, cl] := by
      rw [splitOn_append ':' (a ++ ':' :: (v ++ ':' :: cl)) hg,
        splitOn_append ':' (v ++ ':' :: cl) ha, splitOn_append ':' cl hv,
        splitOn_of_not_mem ':' hclc]
    by_cases hext : ext = jarExt
    · subst hext
      have htos : GradleSpecifier.toString
          { group := g, artifact := a, version := v, classifier := some cl,
            extension := jarExt } = g ++ ':' :: (a ++ ':' :: (v ++ ':' :: cl)) := by
        simp [GradleSpecifier.toString, hclne]
      rw [htos, parse_no_at _ hT, hsp]
    · have htos : GradleSpecifier.toString
          { group := g, artifact := a, version := v, classifier := some cl,
            extension := ext } =
          (g ++ ':' :: (a ++ ':' :: (v ++ ':' :: cl))) ++ '@' :: ext := by
        simp [GradleSpecifier.toString, hclne, hext]
      rw [htos, parse_with_at _ _ hT he, hsp]

/-! ### Claim theorems -/

/-- C1: at the failing pair `parse("g:a:1.0@zip")`, `parse("g:a:1.0")` the
code's equality holds (extension is ignored) while the canonical strings —
the values `__hash__` feeds to the string hash — differ, so the hashes
disagree (exhibited for the length component of any string hash): equal
coordinates do not hash equal. -/
theorem eq_but_hash_differs :
    GradleSpecifier.eq (parseD "g:a:1.0@zip") (parseD "g:a:1.0") = true ∧
    (parseD "g:a:1.0@zip").toString ≠ (parseD "g:a:1.0").toString ∧
    GradleSpecifier.hashWith List.length (parseD "g:a:1.0@zip") ≠
      GradleSpecifier.hashWith List.length (parseD "g:a:1.0") := by
  decide

/-- C2: two coordinates are `__eq__`-equal iff group, artifact, version and
classifier all match (the extension takes no part); in particular
`parse("g:a:1.0@zip") == parse("g:a:1.0")` and
`parse("g:a:1.0:dbg") != parse("g:a:1.0")`. -/
theorem eq_iff_fields_match :
    (∀ a b : GradleSpecifier,
       GradleSpecifier.eq a b = true ↔
         (a.group = b.group ∧ a.artifact = b.artifact ∧
          a.version = b.version ∧ a.classifier = b.classifier)) ∧
    GradleSpecifier.eq (parseD "g:a:1.0@zip") (parseD "g:a:1.0") = true ∧
    GradleSpecifier.ne (parseD "g:a:1.0:dbg") (parseD "g:a:1.0") = true := by
  refine ⟨?_, by decide, by decide⟩
  intro a b
  simp [GradleSpecifier.eq, and_assoc]

/-- C3 counterexample: `parse` accepts `"::a"`, and the resulting group is
the empty string — accepted inputs do not guarantee non-empty
group/artifact/version. -/
theorem parse_accepts_empty_group :
    (GradleSpecifier.parse "::a".toList).isSome = true ∧
    (GradleSpecifier.parse "::a".toList).map GradleSpecifier.group = some [] := by
  decide

/-- C3 (amended): for every input accepted by `parse`, the group, artifact
and version fields are the first three `:`-segments of the part before
the first `@` — they may be empty strings. -/
theorem parse_fields_are_first_three_segments (s : List Char) (c : GradleSpecifier)
    (h : GradleSpecifier.parse s = some c) :
    (splitOn ':' (splitOn '@' s).headI).take 3 = [c.group, c.artifact, c.version] := by
  rw [parse_eq] at h
  split at h
  · next g a v rest heq =>
    simp only [Option.some.injEq] at h
    subst h
    simp [heq]
  · next => exact absurd h (by simp)

/-- C3 witness: the amended theorem at the concrete input `"g:a:1.0"`. -/
theorem parse_fields_witness :
    (splitOn ':' (splitOn '@' "g:a:1.0".toList).headI).take 3 =
      [['g'], ['a'], ['1', '.', '0']] :=
  parse_fields_are_first_three_segments "g:a:1.0".toList
    { group := ['g'], artifact := ['a'], version := ['1', '.', '0'],
      classifier := none, extension := jarExt }
    (by decide)

/-- C4: `parse` fails exactly on the inputs whose part before the first
`@` has fewer than three `:`-segments (the failure is the Python
`IndexError` on `components[1]`/`components[2]`, the spec's
MalformedCoordinate), and succeeds on every other input. -/
theorem parse_none_iff_lt_three_segments (s : List Char) :
    GradleSpecifier.parse s = none ↔
      (splitOn ':' (splitOn '@' s).headI).length < 3 := by
  simp only [GradleSpecifier.parse]
  cases hs : splitOn '@' s with
  | nil => exact absurd hs (splitOn_ne_nil '@' s)
  | cons p ats =>
    simp only [List.headI]
    cases hc : splitOn ':' p with
    | nil => simp
    | cons g cs =>
      cases cs with
      | nil => simp
      | cons a cs2 =>
        cases cs2 with
        | nil => simp
        | cons v rest => simp

/-- C7: decoding `formatVersion` errors with UnsupportedPolyMC carrying the
observed and the maximum value for any value strictly above
`CurrentPolyMCFormatVersion = 1`, succeeds for any value at most 1, and an
omitted field defaults to 1 and succeeds. -/
theorem formatVersion_gate :
    CurrentPolyMCFormatVersion = 1 ∧
    (∀ v : Int, CurrentPolyMCFormatVersion < v →
       decodeFormatVersion (some v) =
         .error (.unsupportedPolyMC v CurrentPolyMCFormatVersion)) ∧
    (∀ v : Int, v ≤ CurrentPolyMCFormatVersion →
       decodeFormatVersion (some v) = .ok v) ∧
    decodeFormatVersion none = .ok CurrentPolyMCFormatVersion := by
  refine ⟨rfl, ?_, ?_, rfl⟩
  · intro v hv
    simp [decodeFormatVersion, validateSupportedPolyMCVersion, hv]
  · intro v hv
    have hn : ¬ (CurrentPolyMCFormatVersion < v) := not_lt.mpr hv
    simp [decodeFormatVersion, validateSupportedPolyMCVersion, hn]

/-- C7 witness: the gate at the concrete values 2 (fails) and 1
(passes). -/
theorem formatVersion_gate_witness :
    CurrentPolyMCFormatVersion < 2 ∧
    decodeFormatVersion (some 2) =
      .error (.unsupportedPolyMC 2 CurrentPolyMCFormatVersion) ∧
    decodeFormatVersion (some 1) = .ok 1 :=
  ⟨by decide, formatVersion_gate.2.1 2 (by decide),
    formatVersion_gate.2.2.1 1 (by decide)⟩

/-- C8: decoding `minimumLauncherVersion` errors with UnsupportedMojang
carrying the observed and the maximum value for any value strictly above
21, succeeds for any value at most 21, and the optional field's absence
never triggers the check. -/
theorem minimumLauncherVersion_gate :
    (∀ v : Int, 21 < v →
       decodeMinimumLauncherVersion (some v) =
         .error (.unsupportedMojang v 21)) ∧
    (∀ v : Int, v ≤ 21 →
       decodeMinimumLauncherVersion (some v) = .ok (some v)) ∧
    decodeMinimumLauncherVersion none = .ok none := by
  refine ⟨?_, ?_, rfl⟩
  · intro v hv
    simp [decodeMinimumLauncherVersion, validateSupportedMojangVersion, hv]
  · intro v hv
    have hn : ¬ ((21 : Int) < v) := not_lt.mpr hv
    simp [decodeMinimumLauncherVersion, validateSupportedMojangVersion, hn]

/-- C8 witness: the gate at the concrete values 22 (fails) and 21
(passes). -/
theorem minimumLauncherVersion_gate_witness :
    decodeMinimumLauncherVersion (some 22) =
      .error (.unsupportedMojang 22 21) ∧
    decodeMinimumLauncherVersion (some 21) = .ok (some 21) :=
  ⟨minimumLauncherVersion_gate.1 22 (by decide),
    minimumLauncherVersion_gate.2.1 21 (by decide)⟩

/-- C9: `write` returns normally whatever the outcome of the underlying
file write — a failing write is caught and reported on the diagnostic
channel (naming the uid), and a successful write reports nothing; no
outcome produces a propagated error. -/
theorem write_never_raises :
    (∀ (d : PolyMCSharedPackageData) (fw : Except EnvError Unit),
       (d.write fw).isOk = true) ∧
    (∀ (d : PolyMCSharedPackageData) (e : EnvError),
       d.write (.error e) = .ok [(d.uid, e)]) ∧
    (∀ d : PolyMCSharedPackageData, d.write (.ok ()) = .ok []) := by
  refine ⟨?_, fun d e => rfl, fun d => rfl⟩
  intro d fw
  cases fw <;> rfl

/-- C10: an accepted input whose pre-`@` part has five or more
`:`-segments parses with classifier `none` and group/artifact/version the
first three segments (the rest are ignored), and an accepted input with
two or more `@` characters keeps the default `jar` extension (the
suffixes are ignored). -/
theorem parse_lenient (s : List Char) :
    (5 ≤ (splitOn ':' (splitOn '@' s).headI).length →
       ∃ c, GradleSpecifier.parse s = some c ∧ c.classifier = none ∧
         (splitOn ':' (splitOn '@' s).headI).take 3 =
           [c.group, c.artifact, c.version]) ∧
    (∀ c, GradleSpecifier.parse s = some c → 2 ≤ s.count '@' →
       c.extension = jarExt) := by
  constructor
  · intro hlen
    rw [parse_eq]
    cases hc : splitOn ':' (splitOn '@' s).headI with
    | nil => rw [hc] at hlen; simp at hlen
    | cons g cs =>
      rw [hc] at hlen
      cases cs with
      | nil => simp at hlen
      | cons a cs2 =>
        cases cs2 with
        | nil => simp at hlen
        | cons v rest =>
          cases rest with
          | nil => simp at hlen
          | cons r1 rest2 =>
            cases rest2 with
            | nil => simp at hlen
            | cons r2 rest3 =>
              exact ⟨_, rfl, rfl, rfl⟩
  · intro c hp hcount
    have hats : 3 ≤ (splitOn '@' s).length := by
      rw [splitOn_length]
      omega
    rw [parse_eq] at hp
    split at hp
    · next g a v rest heq =>
      simp only [Option.some.injEq] at hp
      subst hp
      simp only []
      cases htl : (splitOn '@' s).tail with
      | nil =>
        have := congrArg List.length htl
        simp [List.length_tail] at this
        omega
      | cons a1 ats2 =>
        cases ats2 with
        | nil =>
          have := congrArg List.length htl
          simp [List.length_tail] at this
          omega
        | cons a2 ats3 => simp [htl]
    · next => exact absurd hp (by simp)

/-- C10 witness: the lenient behaviour at the concrete input
`"a:b:c:d:e@x@y"` (five segments, two `@` suffixes). -/
theorem parse_lenient_witness :
    (∃ c, GradleSpecifier.parse "a:b:c:d:e@x@y".toList = some c ∧
       c.classifier = none ∧
       (splitOn ':' (splitOn '@' "a:b:c:d:e@x@y".toList).headI).take 3 =
         [c.group, c.artifact, c.version]) ∧
    (parseD "a:b:c:d:e@x@y").extension = jarExt := by
  constructor
  · exact (parse_lenient "a:b:c:d:e@x@y".toList).1 (by decide)
  · exact (parse_lenient "a:b:c:d:e@x@y".toList).2 (parseD "a:b:c:d:e@x@y")
      (by decide) (by decide)

/-- C6 counterexample: for the parsed coordinate `"g:a:v:"` the classifier
is set (to the empty string), yet the code's filename omits the
`-classifier` part the claim's formula includes. -/
theorem filename_spec_mismatch :
    (parseD "g:a:v:").classifier = some [] ∧
    GradleSpecifier.getFilename (parseD "g:a:v:") ≠ filenameSpec (parseD "g:a:v:") := by
  decide

/-- C6 (amended): the filename is `artifact-version[-classifier].extension`
with the `-classifier` part present exactly when the classifier is set
and non-empty; the relative directory is the group with dots turned into
slashes followed by `/artifact/version/`; the relative path is their
concatenation; and the lwjgl example evaluates as stated. -/
theorem path_derivation :
    (∀ s : GradleSpecifier,
       s.getFilename = filenameSpecAmended s ∧
       s.getBase = relativeDirectorySpec s ∧
       s.getPath = relativeDirectorySpec s ++ filenameSpecAmended s) ∧
    (parseD "org.lwjgl:lwjgl:2.9.0").getPath =
      "org/lwjgl/lwjgl/2.9.0/lwjgl-2.9.0.jar".toList := by
  refine ⟨?_, by decide⟩
  intro s
  have h1 : s.getFilename = filenameSpecAmended s := by
    unfold GradleSpecifier.getFilename filenameSpecAmended
    cases hc : s.classifier with
    | none => simp
    | some c =>
      by_cases hce : c = []
      · simp [hce]
      · simp [hce]
  have h2 : s.getBase = relativeDirectorySpec s := by
    unfold GradleSpecifier.getBase relativeDirectorySpec
    rw [joinSep_splitOn_map]
  refine ⟨h1, h2, ?_⟩
  rw [GradleSpecifier.getPath, h1, h2]

/-- C5 counterexample: `parse` accepts `"g:a:v:c:x"` (five segments, no
`@jar` suffix to normalize away), but its canonical string is `"g:a:v"`,
not the input. -/
theorem toString_not_roundtrip :
    (GradleSpecifier.parse "g:a:v:c:x".toList).map GradleSpecifier.toString =
      some "g:a:v".toList ∧
    normalizeJar "g:a:v:c:x".toList = "g:a:v:c:x".toList ∧
    "g:a:v".toList ≠ "g:a:v:c:x".toList := by
  decide

/-- C5 (amended): for every accepted string with at most one `@` whose
pre-`@` part has exactly three `:`-segments, or four with a non-empty
fourth, `toString` reproduces the input's normalized form (an explicit
`@jar` suffix is dropped, everything else is identical), and parsing the
canonical string yields back the same coordinate — in particular an
`__eq__`-equal one with the same extension. -/
theorem toString_roundtrip (s : List Char) (c : GradleSpecifier)
    (hp : GradleSpecifier.parse s = some c)
    (hat : (splitOn '@' s).length ≤ 2)
    (hseg : (splitOn ':' (splitOn '@' s).headI).length = 3 ∨
            ((splitOn ':' (splitOn '@' s).headI).length = 4 ∧
             (splitOn ':' (splitOn '@' s).headI).getLast? ≠ some [])) :
    c.toString = normalizeJar s ∧ GradleSpecifier.parse c.toString = some c := by
  cases hs : splitOn '@' s with
  | nil => exact absurd hs (splitOn_ne_nil '@' s)
  | cons p ats =>
    rw [hs] at hat hseg
    simp only [List.headI, List.length_cons] at hat hseg
    have hpm : p ∈ splitOn '@' s := by rw [hs]; exact List.mem_cons_self p ats
    have hAtP : '@' ∉ p := not_mem_of_mem_splitOn '@' hpm
    have hseq := joinSep_splitOn '@' s
    rw [hs] at hseq
    rw [parse_eq, hs] at hp
    simp only [List.headI, List.tail_cons] at hp
    have hdecomp : (∃ g a v, splitOn ':' p = [g, a, v]) ∨
        (∃ g a v cl, splitOn ':' p = [g, a, v, cl] ∧ cl ≠ []) := by
      rcases hL : splitOn ':' p with _ | ⟨g, _ | ⟨a, _ | ⟨v, _ | ⟨cl, _ | ⟨x, rest⟩⟩⟩⟩⟩ <;>
        rw [hL] at hseg <;> simp at hseg
      · exact Or.inl ⟨g, a, v, rfl⟩
      · exact Or.inr ⟨g, a, v, cl, rfl, hseg⟩
    rcases hdecomp with ⟨g, a, v, hL⟩ | ⟨g, a, v, cl, hL, hclne⟩
    all_goals rw [hL] at hp
    all_goals
      have hgm : g ∈ splitOn ':' p := by rw [hL]; simp
      have ham : a ∈ splitOn ':' p := by rw [hL]; simp
      have hvm : v ∈ splitOn ':' p := by rw [hL]; simp
      have hg : ':' ∉ g := not_mem_of_mem_splitOn ':' hgm
      have ha : ':' ∉ a := not_mem_of_mem_splitOn ':' ham
      have hv : ':' ∉ v := not_mem_of_mem_splitOn ':' hvm
      have hg2 : '@' ∉ g := fun hx => hAtP (mem_of_mem_splitOn ':' hgm hx)
      have ha2 : '@' ∉ a := fun hx => hAtP (mem_of_mem_splitOn ':' ham hx)
      have hv2 : '@' ∉ v := fun hx => hAtP (mem_of_mem_splitOn ':' hvm hx)
      have hjoin := joinSep_splitOn ':' p
      rw [hL] at hjoin
      simp only [joinSep] at hjoin
    -- three-segment case
    · cases ats with
      | cons e ats2 =>
        cases ats2 with
        | cons e2 ats3 => simp only [List.length_cons] at hat; omega
        | nil =>
          have he2 : '@' ∉ e := not_mem_of_mem_splitOn '@' (by rw [hs]; simp)
          simp only [Option.some.injEq] at hp
          subst hp
          simp only [joinSep] at hseq
          refine ⟨?_, parse_of_wellFormed _ hg hg2 ha ha2 hv hv2
            (fun cl' hcl' => nomatch hcl') he2⟩
          by_cases hext : e = jarExt
          · subst hext
            have htos : GradleSpecifier.toString
                { group := g, artifact := a, version := v, classifier := none,
                  extension := jarExt } = g ++ ':' :: (a ++ ':' :: v) := by
              simp [GradleSpecifier.toString]
            rw [htos, normalizeJar, hs]
            simp only [if_pos rfl]
            exact hjoin
          · have htos : GradleSpecifier.toString
                { group := g, artifact := a, version := v, classifier := none,
                  extension := e } = (g ++ ':' :: (a ++ ':' :: v)) ++ '@' :: e := by
              simp [GradleSpecifier.toString, hext]
            rw [htos, normalizeJar, hs]
            simp only [if_neg hext]
            rw [← hseq, hjoin]
      | nil =>
        simp only [Option.some.injEq] at hp
        subst hp
        simp only [joinSep] at hseq
        refine ⟨?_, parse_of_wellFormed _ hg hg2 ha ha2 hv hv2
          (fun cl' hcl' => nomatch hcl')
          (show ('@' : Char) ∉ jarExt by decide)⟩
        have htos : GradleSpecifier.toString
            { group := g, artifact := a, version := v, classifier := none,
              extension := jarExt } = g ++ ':' :: (a ++ ':' :: v) := by
          simp [GradleSpecifier.toString]
        rw [htos, normalizeJar, hs, ← hseq, hjoin]
    -- four-segment case
    · have hclm : cl ∈ splitOn ':' p := by rw [hL]; simp
      have hclc : ':' ∉ cl := not_mem_of_mem_splitOn ':' hclm
      have hcla : '@' ∉ cl := fun hx => hAtP (mem_of_mem_splitOn ':' hclm hx)
      have hclf : ∀ cl', (some cl : Option (List Char)) = some cl' →
          cl' ≠ [] ∧ ':' ∉ cl' ∧ '@' ∉ cl' := by
        intro cl' hcl'
        cases hcl'
        exact ⟨hclne, hclc, hcla⟩
      cases ats with
      | cons e ats2 =>
        cases ats2 with
        | cons e2 ats3 => simp only [List.length_cons] at hat; omega
        | nil =>
          have he2 : '@' ∉ e := not_mem_of_mem_splitOn '@' (by rw [hs]; simp)
          simp only [Option.some.injEq] at hp
          subst hp
          simp only [joinSep] at hseq
          refine ⟨?_, parse_of_wellFormed _ hg hg2 ha ha2 hv hv2 hclf he2⟩
          by_cases hext : e = jarExt
          · subst hext
            have htos : GradleSpecifier.toString
                { group := g, artifact := a, version := v, classifier := some cl,
                  extension := jarExt } =
                g ++ ':' :: (a ++ ':' :: (v ++ ':' :: cl)) := by
              simp [GradleSpecifier.toString, hclne]
            rw [htos, normalizeJar, hs]
            simp only [if_pos rfl]
            exact hjoin
          · have htos : GradleSpecifier.toString
                { group := g, artifact := a, version := v, classifier := some cl,
                  extension := e } =
                (g ++ ':' :: (a ++ ':' :: (v ++ ':' :: cl))) ++ '@' :: e := by
              simp [GradleSpecifier.toString, hclne, hext]
            rw [htos, normalizeJar, hs]
            simp only [if_neg hext]
            rw [← hseq, hjoin]
      | nil =>
        simp only [Option.some.injEq] at hp
        subst hp
        simp only [joinSep] at hseq
        refine ⟨?_, parse_of_wellFormed _ hg hg2 ha ha2 hv hv2 hclf
          (show ('@' : Char) ∉ jarExt by decide)⟩
        have htos : GradleSpecifier.toString
            { group := g, artifact := a, version := v, classifier := some cl,
              extension := jarExt } =
            g ++ ':' :: (a ++ ':' :: (v ++ ':' :: cl)) := by
          simp [GradleSpecifier.toString, hclne]
        rw [htos, normalizeJar, hs, ← hseq, hjoin]

/-- C5 witness: the round trip at the concrete input `"g:a:1.0:n@zip"`
(one `@`, four segments with non-empty fourth). -/
theorem toString_roundtrip_witness :
    (parseD "g:a:1.0:n@zip").toString = normalizeJar "g:a:1.0:n@zip".toList ∧
    GradleSpecifier.parse (parseD "g:a:1.0:n@zip").toString =
      some (parseD "g:a:1.0:n@zip") :=
  toString_roundtrip "g:a:1.0:n@zip".toList (parseD "g:a:1.0:n@zip")
    (by decide) (by decide) (by decide)

end MetaUtil
